import Mathlib

/-!
Shallow embedding of the doubly linked list `yrgo::container::List<T>`
(file `list.hpp` of the repository).

Pointers are modelled as `Option Nat` (`none` is `nullptr`), the heap as a
partial map `Nat → Option (Node T)`.  The embedded operations are
translated statement by statement from the C++ member functions; a
dereference of a null or unallocated pointer (undefined behaviour in C++)
makes the operation return `none`.

Only the members of `List` that are well-formed C++ are embedded:
`Clear`, `RemoveAllNodes`, `PopFront`, `PopBack`, the iterator stepping
operators and iteration from `begin()` to `end()`.  The remaining mutating
members have no C++ semantics to embed, because they fail to compile
whenever instantiated: `PushFront`, `PushBack`, `Insert` and the grow path
of `Resize` allocate through `Node::New`, whose call `detail::New<Node>()`
omits the mandatory `size` parameter of `detail::New` (`container.hpp`);
`Remove` calls `iterator.This()`, a member `Iterator` does not declare;
and `Copy(List&)` indexes `source[i]` with an integer although
`operator[]` only accepts iterator references.  The repository never
instantiates `List`, so these errors are latent.
-/

namespace LinkedList

/-- A pointer: `none` is `nullptr`, `some a` is the address `a`. -/
abbrev Ptr := Option Nat

/-- `List<T>::Node`: `previous` and `next` links plus the stored `data`. -/
structure Node (T : Type) where
  previous : Ptr
  next : Ptr
  data : T
  deriving Repr, DecidableEq

/-- The heap: a partial map from addresses to allocated nodes. -/
abbrev Heap (T : Type) := Nat → Option (Node T)

/-- Store node `nd` at address `a`. -/
def hset (h : Heap T) (a : Nat) (nd : Node T) : Heap T :=
  fun b => if b = a then some nd else h b

/-- Free the node at address `a` (models `Node::Delete`). -/
def hfree (h : Heap T) (a : Nat) : Heap T :=
  fun b => if b = a then none else h b

/-- The state of a `List<T>` object: its heap of nodes, a fresh-address
counter used by allocation, and the three members `first_`, `last_`,
`size_` of the C++ class. -/
structure ListState (T : Type) where
  heap : Heap T
  fresh : Nat
  first_ : Ptr
  last_ : Ptr
  size_ : Nat

/-- The default-constructed empty list. -/
def emptyState (T : Type) : ListState T :=
  { heap := fun _ => none, fresh := 0, first_ := none, last_ := none, size_ := 0 }

/-- `RemoveAllNodes`: walk from `p` following `next`, freeing each node.
The C++ loop runs until the null pointer; `fuel` (instantiated with
`size_`) bounds the walk to keep the function total. -/
def removeAllNodes (h : Heap T) : Ptr → Nat → Heap T
  | _, 0 => h
  | none, _ + 1 => h
  | some a, fuel + 1 =>
    match h a with
    | none => h
    | some nd => removeAllNodes (hfree h a) nd.next fuel

/-- `List::Clear`: free every node, reset `first_`, `last_`, `size_`. -/
def Clear (s : ListState T) : ListState T :=
  { heap := removeAllNodes s.heap s.first_ s.size_, fresh := s.fresh,
    first_ := none, last_ := none, size_ := 0 }

/-- `List::PopFront()`: at `size_ <= 1` the list is fully cleared,
otherwise the first node is spliced out and freed. -/
def PopFront (s : ListState T) : Option (ListState T) :=
  if s.size_ ≤ 1 then some (Clear s)
  else
    match s.first_ with
    | none => none
    | some a1 =>
      match s.heap a1 with
      | none => none
      | some nd1 =>
        match nd1.next with
        | none => none
        | some a2 =>
          match s.heap a2 with
          | none => none
          | some nd2 =>
            let h1 := hset s.heap a2 { nd2 with previous := none }
            let h2 := hfree h1 a1
            some { heap := h2, fresh := s.fresh, first_ := some a2,
                   last_ := s.last_, size_ := s.size_ - 1 }

/-- `List::PopBack()`: at `size_ <= 1` the list is fully cleared,
otherwise the last node is spliced out and freed. -/
def PopBack (s : ListState T) : Option (ListState T) :=
  if s.size_ ≤ 1 then some (Clear s)
  else
    match s.last_ with
    | none => none
    | some b2 =>
      match s.heap b2 with
      | none => none
      | some nd2 =>
        match nd2.previous with
        | none => none
        | some b1 =>
          match s.heap b1 with
          | none => none
          | some nd1 =>
            let h1 := hset s.heap b1 { nd1 with next := none }
            let h2 := hfree h1 b2
            some { heap := h2, fresh := s.fresh, first_ := s.first_,
                   last_ := some b1, size_ := s.size_ - 1 }

/-- `Iterator::operator++` / the body of `operator+=`:
`node_ = node_->next`.  `none` models the dereference of a null or
dangling `node_`. -/
def iterNext (h : Heap T) (p : Ptr) : Option Ptr :=
  match p with
  | none => none
  | some a => (h a).map (·.next)

/-- `Iterator::operator+=(n)`: `n` executions of `node_ = node_->next`. -/
def iterAdd (h : Heap T) (p : Ptr) : Nat → Option Ptr
  | 0 => some p
  | n + 1 => (iterNext h p).bind fun q => iterAdd h q n

/-- Iterating from pointer `p` to `end()` (the null pointer), collecting
`*it` and stepping with `operator++`; `fuel` bounds the walk. -/
def iterate (h : Heap T) : Ptr → Nat → Option (List T)
  | none, _ => some []
  | some _, 0 => none
  | some a, fuel + 1 =>
    match h a with
    | none => none
    | some nd => (iterate h nd.next fuel).map (nd.data :: ·)

/-- The values seen when iterating a list from `begin()` to `end()`. -/
def toList (s : ListState T) : Option (List T) :=
  iterate s.heap s.first_ s.size_

/-- First address of `addrs` as a pointer, or `nxt` if `addrs` is empty. -/
def headPtr (addrs : List Nat) (nxt : Ptr) : Ptr :=
  match addrs with
  | [] => nxt
  | a :: _ => some a

/-- Last address of `addrs` as a pointer, or `prev` if `addrs` is empty. -/
def lastPtr : List Nat → Ptr → Ptr
  | [], prev => prev
  | a :: rest, _ => lastPtr rest (some a)

/-- Doubly linked segment: the nodes at `addrs` are allocated and chained
in order, the first node's `previous` is `prev`, each node's `next` points
to the following address and the last node's `next` is `nxt`. -/
def segb (h : Heap T) : Ptr → List Nat → Ptr → Bool
  | _, [], _ => true
  | prev, a :: rest, nxt =>
    match h a with
    | none => false
    | some nd =>
      decide (nd.previous = prev) && decide (nd.next = headPtr rest nxt) &&
        segb h (some a) rest nxt

/-- Representation predicate: the list state `s` is the well-formed doubly
linked list whose nodes sit at the addresses `addrs`, in order. -/
def reps (s : ListState T) (addrs : List Nat) : Prop :=
  s.first_ = headPtr addrs none ∧
  s.last_ = lastPtr addrs none ∧
  s.size_ = addrs.length ∧
  addrs.Nodup ∧
  (∀ a ∈ addrs, a < s.fresh) ∧
  segb s.heap none addrs none = true

instance repsDecidable (s : ListState T) (addrs : List Nat) :
    Decidable (reps s addrs) := by
  unfold reps
  infer_instance

/-- The stored values of the nodes at `addrs`. -/
def contents (h : Heap T) (addrs : List Nat) : List T :=
  addrs.filterMap fun a => (h a).map (·.data)

/-- Follow `next` links `n` times from `p`; `none` when a null or
unallocated pointer is dereferenced on the way. -/
def nextN (h : Heap T) : Ptr → Nat → Option Ptr
  | p, 0 => some p
  | none, _ + 1 => none
  | some a, n + 1 =>
    match h a with
    | none => none
    | some nd => nextN h nd.next n

/-- Follow `previous` links `n` times from `p`. -/
def prevN (h : Heap T) : Ptr → Nat → Option Ptr
  | p, 0 => some p
  | none, _ + 1 => none
  | some a, n + 1 =>
    match h a with
    | none => none
    | some nd => prevN h nd.previous n

/-- The list invariant exactly as the specification states it:
`size == 0` iff both `first_` and `last_` are null; for `size >= 1` the
head's `previous` is null, the tail's `next` is null, following `next`
from the head reaches the tail after `size - 1` steps and following
`previous` from the tail reaches the head after `size - 1` steps. -/
def listInvariant (s : ListState T) : Prop :=
  (s.size_ = 0 ↔ (s.first_ = none ∧ s.last_ = none)) ∧
  (1 ≤ s.size_ →
    (∃ a nd, s.first_ = some a ∧ s.heap a = some nd ∧ nd.previous = none) ∧
    (∃ b nd, s.last_ = some b ∧ s.heap b = some nd ∧ nd.next = none) ∧
    nextN s.heap s.first_ (s.size_ - 1) = some s.last_ ∧
    prevN s.heap s.last_ (s.size_ - 1) = some s.first_)

/-- One backward step of an iterator: `node_->previous`. -/
def prevOne (h : Heap T) (q : Ptr) : Option Ptr :=
  match q with
  | none => none
  | some a => (h a).map (·.previous)

/-- A concrete one-element list (value 5 at address 0). -/
def listOne : ListState Nat :=
  { heap := fun n => if n = 0 then some ⟨none, none, 5⟩ else none,
    fresh := 1, first_ := some 0, last_ := some 0, size_ := 1 }

/-- A concrete two-element list (values 10, 20 at addresses 0, 1). -/
def listTwo : ListState Nat :=
  { heap := fun n =>
      if n = 0 then some ⟨none, some 1, 10⟩
      else if n = 1 then some ⟨some 0, none, 20⟩ else none,
    fresh := 2, first_ := some 0, last_ := some 1, size_ := 2 }

/-! ### Basic lemmas about the heap and segments -/

theorem hset_same (h : Heap T) (a : Nat) (nd : Node T) : hset h a nd a = some nd := by
  simp [hset]

theorem hset_other (h : Heap T) (a b : Nat) (nd : Node T) (hne : b ≠ a) :
    hset h a nd b = h b := by
  simp [hset, hne]

theorem hfree_same (h : Heap T) (a : Nat) : hfree h a a = none := by
  simp [hfree]

theorem hfree_other (h : Heap T) (a b : Nat) (hne : b ≠ a) : hfree h a b = h b := by
  simp [hfree, hne]

theorem headPtr_nil (nxt : Ptr) : headPtr [] nxt = nxt := rfl

theorem headPtr_cons (a : Nat) (rest : List Nat) (nxt : Ptr) :
    headPtr (a :: rest) nxt = some a := rfl

theorem headPtr_append (xs ys : List Nat) (nxt : Ptr) :
    headPtr (xs ++ ys) nxt = headPtr xs (headPtr ys nxt) := by
  cases xs <;> rfl

theorem lastPtr_nil (prev : Ptr) : lastPtr [] prev = prev := rfl

theorem lastPtr_single (a : Nat) (prev : Ptr) : lastPtr [a] prev = some a := rfl

theorem lastPtr_cons (a : Nat) (rest : List Nat) (prev : Ptr) :
    lastPtr (a :: rest) prev = lastPtr rest (some a) := rfl

theorem lastPtr_concat (xs : List Nat) (b : Nat) (prev : Ptr) :
    lastPtr (xs ++ [b]) prev = some b := by
  induction xs generalizing prev with
  | nil => rfl
  | cons x rest ih => rw [List.cons_append, lastPtr_cons, ih]

theorem segb_nil (h : Heap T) (prev nxt : Ptr) : segb h prev [] nxt = true := rfl

theorem segb_cons (h : Heap T) (prev nxt : Ptr) (a : Nat) (rest : List Nat) :
    segb h prev (a :: rest) nxt = true ↔
      ∃ nd, h a = some nd ∧ nd.previous = prev ∧ nd.next = headPtr rest nxt ∧
        segb h (some a) rest nxt = true := by
  cases hha : h a <;> simp [segb, hha] <;> tauto

theorem segb_append (h : Heap T) (xs ys : List Nat) (prev nxt : Ptr) :
    segb h prev (xs ++ ys) nxt = true ↔
      (segb h prev xs (headPtr ys nxt) = true ∧
        segb h (lastPtr xs prev) ys nxt = true) := by
  induction xs generalizing prev with
  | nil => simp [segb_nil, lastPtr_nil, headPtr_nil]
  | cons a rest ih =>
    rw [List.cons_append, segb_cons, segb_cons, lastPtr_cons, headPtr_append]
    constructor
    · rintro ⟨nd, hha, hp, hn, hs⟩
      obtain ⟨h1, h2⟩ := (ih (some a)).mp hs
      exact ⟨⟨nd, hha, hp, hn, h1⟩, h2⟩
    · rintro ⟨⟨nd, hha, hp, hn, h1⟩, h2⟩
      exact ⟨nd, hha, hp, hn, (ih (some a)).mpr ⟨h1, h2⟩⟩

theorem segb_frame (h h' : Heap T) (addrs : List Nat) (prev nxt : Ptr)
    (hag : ∀ a ∈ addrs, h' a = h a) :
    segb h' prev addrs nxt = segb h prev addrs nxt := by
  induction addrs generalizing prev with
  | nil => rfl
  | cons a rest ih =>
    have ha : h' a = h a := hag a (by simp)
    show (match h' a with
      | none => false
      | some nd =>
        decide (nd.previous = prev) && decide (nd.next = headPtr rest nxt) &&
          segb h' (some a) rest nxt) = _
    rw [ha, ih (some a) fun b hb => hag b (by simp [hb])]
    rfl

theorem contents_nil (h : Heap T) : contents h [] = [] := rfl

theorem contents_cons (h : Heap T) (a : Nat) (rest : List Nat) (nd : Node T)
    (hha : h a = some nd) :
    contents h (a :: rest) = nd.data :: contents h rest := by
  simp [contents, List.filterMap_cons, hha]

theorem contents_append (h : Heap T) (xs ys : List Nat) :
    contents h (xs ++ ys) = contents h xs ++ contents h ys := by
  simp [contents, List.filterMap_append]

theorem contents_congr (h h' : Heap T) (addrs : List Nat)
    (hag : ∀ a ∈ addrs, (h' a).map (·.data) = (h a).map (·.data)) :
    contents h' addrs = contents h addrs := by
  induction addrs with
  | nil => rfl
  | cons a rest ih =>
    have ha := hag a (by simp)
    simp only [contents, List.filterMap_cons] at ih ⊢
    rw [ha, ih fun b hb => hag b (by simp [hb])]

theorem iterate_seg (h : Heap T) (addrs : List Nat) (prev : Ptr) (fuel : Nat)
    (hseg : segb h prev addrs none = true) (hfuel : addrs.length ≤ fuel) :
    iterate h (headPtr addrs none) fuel = some (contents h addrs) := by
  induction addrs generalizing prev fuel with
  | nil => cases fuel <;> simp [iterate, contents, headPtr_nil]
  | cons a rest ih =>
    obtain ⟨nd, hha, _, hnext, hrest⟩ := (segb_cons h prev none a rest).mp hseg
    cases fuel with
    | zero => simp at hfuel
    | succ f =>
      have hf : rest.length ≤ f := by simpa using hfuel
      rw [headPtr_cons]
      show (match h a with
        | none => none
        | some nd => (iterate h nd.next f).map (nd.data :: ·)) = _
      rw [hha]
      show (iterate h nd.next f).map (nd.data :: ·) = _
      rw [hnext, ih (some a) f hrest hf, contents_cons h a rest nd hha]
      rfl

theorem nextN_seg (h : Heap T) (a : Nat) (rest : List Nat) (prev nxt : Ptr)
    (hseg : segb h prev (a :: rest) nxt = true) :
    nextN h (some a) rest.length = some (lastPtr (a :: rest) prev) := by
  induction rest generalizing a prev with
  | nil =>
    obtain ⟨nd, hha, _, _, _⟩ := (segb_cons h prev nxt a []).mp hseg
    simp [nextN, lastPtr_single]
  | cons b l ih =>
    obtain ⟨nd, hha, _, hnext, hrest⟩ := (segb_cons h prev nxt a (b :: l)).mp hseg
    rw [lastPtr_cons]
    show (match h a with
      | none => none
      | some nd => nextN h nd.next (b :: l).length.pred.succ.pred) = _
    rw [hha]
    show nextN h nd.next (l.length + 1 - 1) = _
    rw [hnext, headPtr_cons]
    simpa using ih b (some a) hrest

theorem prevN_succ (h : Heap T) (p : Ptr) (n : Nat) :
    prevN h p (n + 1) = (prevN h p n).bind (prevOne h) := by
  induction n generalizing p with
  | zero => cases p with
    | none => rfl
    | some a => cases hha : h a <;> simp [prevN, prevOne, hha]
  | succ n ih =>
    cases p with
    | none => rfl
    | some a =>
      cases hha : h a with
      | none => simp [prevN, hha]
      | some nd =>
        show prevN h (some a) (n + 2) = _
        have h1 : prevN h (some a) (n + 2) = prevN h nd.previous (n + 1) := by
          simp [prevN, hha]
        have h2 : prevN h (some a) (n + 1) = prevN h nd.previous n := by
          simp [prevN, hha]
        rw [h1, h2, ih nd.previous]

theorem prevN_seg (h : Heap T) (a : Nat) (rest : List Nat) (prev nxt : Ptr)
    (hseg : segb h prev (a :: rest) nxt = true) :
    prevN h (lastPtr (a :: rest) prev) rest.length = some (some a) := by
  induction rest generalizing a prev with
  | nil => simp [prevN, lastPtr_single]
  | cons b l ih =>
    obtain ⟨nd, hha, _, hnext, hrest⟩ := (segb_cons h prev nxt a (b :: l)).mp hseg
    obtain ⟨ndb, hhb, hprevb, _, _⟩ := (segb_cons h (some a) nxt b l).mp hrest
    rw [lastPtr_cons]
    show prevN h (lastPtr (b :: l) (some a)) (l.length + 1) = _
    rw [prevN_succ, ih b (some a) hrest]
    simp [prevOne, hhb, hprevb]

theorem segb_last (h : Heap T) (a : Nat) (rest : List Nat) (prev nxt : Ptr)
    (hseg : segb h prev (a :: rest) nxt = true) :
    ∃ b nd, lastPtr (a :: rest) prev = some b ∧ h b = some nd ∧ nd.next = nxt := by
  induction rest generalizing a prev with
  | nil =>
    obtain ⟨nd, hha, _, hnext, _⟩ := (segb_cons h prev nxt a []).mp hseg
    exact ⟨a, nd, lastPtr_single a prev, hha, hnext⟩
  | cons b l ih =>
    obtain ⟨nd, hha, _, hnext, hrest⟩ := (segb_cons h prev nxt a (b :: l)).mp hseg
    rw [lastPtr_cons]
    exact ih b (some a) hrest

/-- A well-formed list representation satisfies the specification's
invariant. -/
theorem reps_listInvariant (s : ListState T) (addrs : List Nat)
    (hr : reps s addrs) : listInvariant s := by
  obtain ⟨hf, hl, hs, _, _, hseg⟩ := hr
  cases addrs with
  | nil =>
    refine ⟨?_, ?_⟩
    · simp [hf, hl, hs, headPtr_nil, lastPtr_nil]
    · intro h1; rw [hs] at h1; simp at h1
  | cons a rest =>
    obtain ⟨nd, hha, hprev, _, _⟩ := (segb_cons s.heap none none a rest).mp hseg
    obtain ⟨b, ndb, hlast, hhb, hnextb⟩ := segb_last s.heap a rest none none hseg
    refine ⟨⟨fun h0 => by rw [hs] at h0; simp at h0,
      fun ⟨hf0, _⟩ => by rw [hf, headPtr_cons] at hf0; cases hf0⟩, fun _ => ?_⟩
    refine ⟨⟨a, nd, by rw [hf, headPtr_cons], hha, hprev⟩,
      ⟨b, ndb, by rw [hl, hlast], hhb, hnextb⟩, ?_, ?_⟩
    · rw [hf, headPtr_cons, hs, hl]
      simpa using nextN_seg s.heap a rest none none hseg
    · rw [hf, headPtr_cons, hs, hl]
      simpa using prevN_seg s.heap a rest none none hseg

/-! ### Preservation of the representation by the well-formed operations -/

theorem reps_emptyState (T : Type) : reps (emptyState T) [] := by
  refine ⟨rfl, rfl, rfl, by simp, by simp, rfl⟩

theorem clear_reps (s : ListState T) : reps (Clear s) [] := by
  refine ⟨rfl, rfl, rfl, by simp, by simp, rfl⟩

theorem popFront_reps (s : ListState T) (addrs : List Nat)
    (hr : reps s addrs) :
    ∃ s', PopFront s = some s' ∧ reps s' addrs.tail ∧
      (∀ z ∈ addrs.tail, (s'.heap z).map (·.data) = (s.heap z).map (·.data)) ∧
      s'.fresh = s.fresh := by
  obtain ⟨hf, hl, hs, hnd, hfr, hseg⟩ := hr
  match addrs with
  | [] =>
    refine ⟨Clear s, ?_, clear_reps s, by simp, rfl⟩
    have hsz : s.size_ ≤ 1 := by rw [hs]; simp
    simp [PopFront, hsz]
  | [x] =>
    refine ⟨Clear s, ?_, clear_reps s, by simp, rfl⟩
    have hsz : s.size_ ≤ 1 := by rw [hs]; simp
    simp [PopFront, hsz]
  | x :: y :: rest =>
    have hsz : ¬ s.size_ ≤ 1 := by rw [hs]; simp
    have hfx : s.first_ = some x := by rw [hf, headPtr_cons]
    obtain ⟨ndx, hhx, hpx, hnx, hrest⟩ :=
      (segb_cons s.heap none none x (y :: rest)).mp hseg
    obtain ⟨ndy, hhy, hpy, hny, hrest2⟩ :=
      (segb_cons s.heap (some x) none y rest).mp hrest
    have hnx' : ndx.next = some y := by simpa using hnx
    have hxy : x ≠ y := by
      intro he
      exact (List.nodup_cons.mp hnd).1 (he ▸ List.mem_cons_self y rest)
    have hxrest : x ∉ y :: rest := (List.nodup_cons.mp hnd).1
    have hyrest : y ∉ rest := (List.nodup_cons.mp (List.nodup_cons.mp hnd).2).1
    refine ⟨⟨hfree (hset s.heap y { ndy with previous := none }) x, s.fresh,
      some y, s.last_, s.size_ - 1⟩, ?_, ?_, ?_, rfl⟩
    · simp [PopFront, hsz, hfx, hhx, hnx', hhy]
    · simp only [reps]
      have hframe : ∀ z ∈ rest,
          hfree (hset s.heap y { ndy with previous := none }) x z = s.heap z := by
        intro z hz
        have hzx : z ≠ x := fun he => hxrest (by simp [he ▸ hz])
        have hzy : z ≠ y := fun he => hyrest (he ▸ hz)
        rw [hfree_other _ _ _ hzx, hset_other _ _ _ _ hzy]
      refine ⟨rfl, ?_, by rw [hs]; rfl, (List.nodup_cons.mp hnd).2, ?_, ?_⟩
      · rw [hl]
        simp [lastPtr_cons]
      · intro z hz
        exact hfr z (by simp [List.mem_cons.mp hz])
      · refine (segb_cons _ _ _ y rest).mpr ⟨{ ndy with previous := none },
          ?_, rfl, by simpa using hny, ?_⟩
        · rw [hfree_other _ _ _ (Ne.symm hxy), hset_same]
        · rw [segb_frame s.heap _ rest _ _ hframe]
          exact hrest2
    · dsimp only
      intro z hz
      rcases List.mem_cons.mp hz with hz' | hz'
      · subst hz'
        rw [hfree_other _ _ _ (Ne.symm hxy), hset_same, hhy]
        rfl
      · have hzx : z ≠ x := fun he => hxrest (by simp [he ▸ hz'])
        have hzy : z ≠ y := fun he => hyrest (he ▸ hz')
        rw [hfree_other _ _ _ hzx, hset_other _ _ _ _ hzy]

theorem popBack_reps (s : ListState T) (addrs : List Nat)
    (hr : reps s addrs) :
    ∃ s', PopBack s = some s' ∧ reps s' addrs.dropLast ∧
      contents s'.heap addrs.dropLast = contents s.heap addrs.dropLast ∧
      s'.fresh = s.fresh := by
  obtain ⟨hf, hl, hs, hnd, hfr, hseg⟩ := hr
  rcases List.eq_nil_or_concat' addrs with rfl | ⟨init, b, rfl⟩
  · refine ⟨Clear s, ?_, clear_reps s, rfl, rfl⟩
    have hsz : s.size_ ≤ 1 := by rw [hs]; simp
    simp [PopBack, hsz]
  rcases List.eq_nil_or_concat' init with rfl | ⟨X, c, rfl⟩
  · refine ⟨Clear s, ?_, by simpa using clear_reps s, rfl, rfl⟩
    have hsz : s.size_ ≤ 1 := by rw [hs]; simp
    simp [PopBack, hsz]
  · have hsz : ¬ s.size_ ≤ 1 := by rw [hs]; simp
    have hbl : s.last_ = some b := by rw [hl, lastPtr_concat]
    obtain ⟨hseg1, hseg2⟩ := (segb_append s.heap (X ++ [c]) [b] none none).mp hseg
    obtain ⟨ndb, hhb, hpb, hnb, -⟩ :=
      (segb_cons s.heap (lastPtr (X ++ [c]) none) none b []).mp hseg2
    obtain ⟨hsegX, hsegc⟩ :=
      (segb_append s.heap X [c] none (headPtr [b] none)).mp hseg1
    obtain ⟨ndc, hhc, hpc, hnc, -⟩ :=
      (segb_cons s.heap (lastPtr X none) (headPtr [b] none) c []).mp hsegc
    have hpb' : ndb.previous = some c := by rw [hpb, lastPtr_concat]
    have hbnotin : b ∉ X ++ [c] := by
      rw [List.nodup_append] at hnd
      intro hmem
      exact hnd.2.2 hmem (by simp)
    have hcnotin : c ∉ X := by
      have : (X ++ [c]).Nodup := (List.nodup_append.mp hnd).1
      rw [List.nodup_append] at this
      intro hmem
      exact this.2.2 hmem (by simp)
    have hcb : c ≠ b := fun he => hbnotin (by simp [he])
    refine ⟨⟨hfree (hset s.heap c { ndc with next := none }) b, s.fresh,
      s.first_, some c, s.size_ - 1⟩, ?_, ?_, ?_, rfl⟩
    · simp [PopBack, hsz, hbl, hhb, hpb', hhc]
    · simp only [reps]
      have hframe : ∀ z ∈ X,
          hfree (hset s.heap c { ndc with next := none }) b z = s.heap z := by
        intro z hz
        have hzb : z ≠ b := fun he => hbnotin (by simp [he ▸ hz])
        have hzc : z ≠ c := fun he => hcnotin (he ▸ hz)
        rw [hfree_other _ _ _ hzb, hset_other _ _ _ _ hzc]
      have hdl : (X ++ [c] ++ [b]).dropLast = X ++ [c] := by
        simp
      rw [hdl]
      refine ⟨?_, by simp [lastPtr_concat], ?_, (List.nodup_append.mp hnd).1,
        ?_, ?_⟩
      · rw [hf]
        simp [headPtr_append, headPtr_cons]
      · rw [hs]
        simp
      · intro z hz
        refine hfr z ?_
        simp only [List.mem_append] at hz ⊢
        tauto
      · refine (segb_append _ X [c] none none).mpr ⟨?_, ?_⟩
        · rw [segb_frame s.heap _ X _ _ hframe]
          exact hsegX
        · refine (segb_cons _ _ _ c []).mpr ⟨{ ndc with next := none },
            ?_, by simpa using hpc, rfl, rfl⟩
          rw [hfree_other _ _ _ hcb, hset_same]
    · dsimp only
      have hdl : (X ++ [c] ++ [b]).dropLast = X ++ [c] := by
        simp
      rw [hdl]
      refine contents_congr _ _ _ ?_
      intro z hz
      have hzb : z ≠ b := fun he => hbnotin (he ▸ hz)
      rw [hfree_other _ _ _ hzb]
      rcases List.mem_append.mp hz with hz' | hz'
      · have hzc : z ≠ c := fun he => hcnotin (he ▸ hz')
        rw [hset_other _ _ _ _ hzc]
      · have hzc : z = c := by simpa using hz'
        subst hzc
        rw [hset_same, hhc]
        rfl

theorem lastPtr_append (xs ys : List Nat) (prev : Ptr) :
    lastPtr (xs ++ ys) prev = lastPtr ys (lastPtr xs prev) := by
  induction xs generalizing prev with
  | nil => rfl
  | cons a rest ih => rw [List.cons_append, lastPtr_cons, lastPtr_cons, ih]

theorem segb_isSome (h : Heap T) (addrs : List Nat) :
    ∀ (prev nxt : Ptr), segb h prev addrs nxt = true →
      ∀ a ∈ addrs, (h a).isSome = true := by
  induction addrs with
  | nil => intro prev nxt _ a ha; simp at ha
  | cons x rest ih =>
    intro prev nxt hseg a ha
    obtain ⟨nd, hhx, _, _, hrest⟩ := (segb_cons h prev nxt x rest).mp hseg
    rcases List.mem_cons.mp ha with rfl | ha'
    · simp [hhx]
    · exact ih (some x) nxt hrest a ha'

theorem contents_drop (h : Heap T) (l : List Nat)
    (hal : ∀ a ∈ l, (h a).isSome = true) (k : Nat) :
    contents h (l.drop k) = (contents h l).drop k := by
  induction l generalizing k with
  | nil => simp [contents]
  | cons x rest ih =>
    cases k with
    | zero => simp
    | succ k =>
      have hx : (h x).isSome = true := hal x (by simp)
      obtain ⟨nd, hnd⟩ := Option.isSome_iff_exists.mp hx
      rw [List.drop_succ_cons, ih (fun a ha => hal a (by simp [ha])) k,
        contents_cons h x rest nd hnd, List.drop_succ_cons]

theorem contents_length (h : Heap T) (l : List Nat)
    (hal : ∀ a ∈ l, (h a).isSome = true) :
    (contents h l).length = l.length := by
  induction l with
  | nil => rfl
  | cons x rest ih =>
    obtain ⟨nd, hnd⟩ := Option.isSome_iff_exists.mp (hal x (by simp))
    rw [contents_cons h x rest nd hnd, List.length_cons, List.length_cons,
      ih fun a ha => hal a (by simp [ha])]

/-- On a well-formed list, iterating from `begin()` to `end()` yields
exactly the stored values, in order. -/
theorem toList_reps (s : ListState T) (addrs : List Nat) (hr : reps s addrs) :
    toList s = some (contents s.heap addrs) := by
  obtain ⟨hf, _, hs, _, _, hseg⟩ := hr
  rw [toList, hf, hs]
  exact iterate_seg s.heap addrs none addrs.length hseg le_rfl

/-! ### Claim theorems -/

/-- **C8**: popping an empty list is safe: `size_ <= 1` is detected and the
list is fully cleared, so on the empty list the size stays `0` and both
links stay null. -/
theorem C8_pop_empty_safe :
    (∀ T : Type, PopFront (emptyState T) = some (Clear (emptyState T)) ∧
      PopBack (emptyState T) = some (Clear (emptyState T)) ∧
      (Clear (emptyState T)).size_ = 0 ∧
      (Clear (emptyState T)).first_ = none ∧
      (Clear (emptyState T)).last_ = none) ∧
    (∀ (T : Type) (s : ListState T), s.size_ ≤ 1 →
      PopFront s = some (Clear s) ∧ PopBack s = some (Clear s) ∧
      (Clear s).size_ = 0 ∧ (Clear s).first_ = none ∧
      (Clear s).last_ = none) := by
  refine ⟨fun T => ⟨rfl, rfl, rfl, rfl, rfl⟩, fun T s h => ⟨?_, ?_, rfl, rfl, rfl⟩⟩
  · simp [PopFront, h]
  · simp [PopBack, h]

/-- **C8 witness**: the guarded clearing path at a concrete one-element
list. -/
theorem C8_witness :
    listOne.size_ ≤ 1 ∧ PopFront listOne = some (Clear listOne) ∧
      PopBack listOne = some (Clear listOne) ∧ (Clear listOne).size_ = 0 ∧
      (Clear listOne).first_ = none ∧ (Clear listOne).last_ = none :=
  ⟨by decide, C8_pop_empty_safe.2 Nat listOne (by decide)⟩

/-- **C10**: advancing an iterator that already holds the end-sentinel
(null `node_`) dereferences the null link — in the total embedding the
error branch (`none`) is taken — while advancing an iterator that
references an allocated node is defined and follows the node's `next`
link. -/
theorem C10_iterator_advance :
    (∀ (T : Type) (h : Heap T), iterNext h none = none) ∧
    (∀ (T : Type) (h : Heap T) (n : Nat), iterAdd h none (n + 1) = none) ∧
    (∀ (T : Type) (h : Heap T) (a : Nat) (nd : Node T), h a = some nd →
      iterNext h (some a) = some nd.next ∧
      iterAdd h (some a) 1 = some nd.next) := by
  refine ⟨fun T h => rfl, fun T h n => rfl, fun T h a nd hha => ⟨?_, ?_⟩⟩
  · simp [iterNext, hha]
  · simp [iterAdd, iterNext, hha]

/-- **C10 witness**: stepping at the concrete two-element list: from the
head node the iterator reaches address 1; from the sentinel the advance is
undefined. -/
theorem C10_witness :
    listTwo.heap 0 = some ⟨none, some 1, 10⟩ ∧
    iterNext listTwo.heap (some 0) = some (some 1) ∧
    iterAdd listTwo.heap (some 0) 1 = some (some 1) ∧
    iterNext listTwo.heap none = (none : Option Ptr) := by
  refine ⟨rfl, (C10_iterator_advance.2.2 Nat listTwo.heap 0 ⟨none, some 1, 10⟩ rfl).1,
    (C10_iterator_advance.2.2 Nat listTwo.heap 0 ⟨none, some 1, 10⟩ rfl).2,
    C10_iterator_advance.1 Nat listTwo.heap⟩

end LinkedList
